import Mathlib

/-!
# CBForest secondary index: `KeyRange`, `Index`, `IndexEnumerator`, `IndexWriter`

A shallow embedding of `CBForest/Index.hh`.

* Keys (`Collatable`, `slice`) are an arbitrary type carrying the store's total
  key order; the header only names these types.
* `std::atomic_uint _userCount` is a natural number kept below `2 ^ 32`, every
  increment and decrement reduced modulo `2 ^ 32`.
* Objects reached through pointers (`Index* _index`) are passed explicitly.
* `KeyRange::isKeyPastEnd` and `IndexWriter::update` are declared in the header without a
  body; they are modelled from the specification. The store is a list of rows plus the
  per-document emission records, and `uint64_t& rowCount` is a natural number reduced
  modulo `2 ^ 64`.
-/

namespace cbforest

/-! ## KeyRange -/

/-- The struct `KeyRange`: two keys and the end-inclusivity flag. -/
structure KeyRange (α : Type) where
  start : α
  «end» : α
  inclusiveEnd : Bool

namespace KeyRange

variable {α : Type}

/-- The constructor `KeyRange(Collatable s, Collatable e, bool inclusive)`. -/
def ctor (s e : α) (inclusive : Bool) : KeyRange α :=
  { start := s, «end» := e, inclusiveEnd := inclusive }

/-- The constructor `KeyRange(s, e)` called with the default argument `inclusive = true`. -/
def ctorDefault (s e : α) : KeyRange α :=
  ctor s e true

/-- The constructor `KeyRange(Collatable single)`. -/
def ctorSingle (single : α) : KeyRange α :=
  { start := single, «end» := single, inclusiveEnd := true }

/-- The copy constructor `KeyRange(const KeyRange &r)`. -/
def ctorCopy (r : KeyRange α) : KeyRange α :=
  { start := r.start, «end» := r.«end», inclusiveEnd := r.inclusiveEnd }

/-- Modelled from the spec: the body of `KeyRange::isKeyPastEnd`, which the header only
declares. The spec's words: true iff `k > end`, or `k == end && !inclusiveEnd`, under the
store's key ordering. -/
def isKeyPastEnd [LinearOrder α] (r : KeyRange α) (key : α) : Bool :=
  decide (key > r.«end») || (decide (key = r.«end») && !r.inclusiveEnd)

/-- The member `operator==`: `start==r.start && end==r.end`. -/
def operatorEq [DecidableEq α] (a r : KeyRange α) : Bool :=
  decide (a.start = r.start) && decide (a.«end» = r.«end»)

end KeyRange

/-! ## Index: the user counter -/

/-- The modulus of `unsigned` arithmetic (`std::atomic_uint`). -/
def uintModulus : Nat := 2 ^ 32

/-- The class `Index`: the key-value store it wraps and the atomic user counter. -/
structure Index (S : Type) where
  _store : S
  _userCount : Nat

namespace Index

variable {S : Type}

/-- The method `isBusy`: `_userCount > 0`. -/
def isBusy (ix : Index S) : Bool :=
  decide (ix._userCount > 0)

/-- The method `addUser`: `++_userCount` on an unsigned 32-bit counter. -/
def addUser (ix : Index S) : Index S :=
  { ix with _userCount := (ix._userCount + 1) % uintModulus }

/-- The method `removeUser`: `--_userCount` on an unsigned 32-bit counter. -/
def removeUser (ix : Index S) : Index S :=
  { ix with _userCount := (ix._userCount + (uintModulus - 1)) % uintModulus }

end Index

/-- One call on the user counter. -/
inductive UserCall where
  | addUser
  | removeUser
  deriving DecidableEq, Repr

namespace Index

variable {S : Type}

/-- Perform one counter call. -/
def call (ix : Index S) : UserCall → Index S
  | UserCall.addUser => ix.addUser
  | UserCall.removeUser => ix.removeUser

/-- Perform a sequence of counter calls, first call first. -/
def run (ix : Index S) (calls : List UserCall) : Index S :=
  calls.foldl call ix

/-- The call sequence "`n` times `addUser`, then `n` times `removeUser`". -/
def addThenRemove (n : Nat) : List UserCall :=
  List.replicate n UserCall.addUser ++ List.replicate n UserCall.removeUser

end Index

/-! ## IndexEnumerator -/

/-- The members of `IndexEnumerator` other than the `_index` pointer. The underlying store
cursor `_dbEnum` (a `DocEnumerator`) has an arbitrary state type `E`. -/
structure IndexEnumerator (α E : Type) where
  _keyRanges : List (KeyRange α)
  _currentKeyIndex : Int
  _dbEnum : E

/-- An enumerator together with the `Index` its `_index` pointer refers to. -/
structure EnumeratorHeap (S α E : Type) where
  index : Index S
  enumerator : IndexEnumerator α E

namespace IndexEnumerator

variable {S α E : Type}

/-- The destructor `~IndexEnumerator() {_index->removeUser();}`: the enumerator is gone and
the index it pointed to is what remains. -/
def destroy (h : EnumeratorHeap S α E) : Index S :=
  h.index.removeUser

/-- The method `close() {_dbEnum.close();}`; `dbClose` is `DocEnumerator::close`. -/
def close (dbClose : E → E) (h : EnumeratorHeap S α E) : EnumeratorHeap S α E :=
  { h with enumerator := { h.enumerator with _dbEnum := dbClose h.enumerator._dbEnum } }

/-- The default body of the virtual method `approve(slice key) {return true;}`. -/
def approve (_e : IndexEnumerator α E) (_key : α) : Bool :=
  true

end IndexEnumerator

/-! ## IndexWriter

The header declares `IndexWriter::update`, `getKeysForDoc` and `setKeysForDoc`; their
bodies, and the `KeyStoreWriter` they write through, live outside it. -/

/-- One persisted index entry: identified by key, docID, sequence and emitIndex, and
holding the emitted value. -/
structure Row (K D V : Type) where
  key : K
  docID : D
  sequence : Nat
  emitIndex : Nat
  value : V
  deriving DecidableEq, Repr

/-- One emitted pair of a document: the key, its position `emitIndex` in the emitted
arrays, and the value. -/
structure Emission (K V : Type) where
  key : K
  emitIndex : Nat
  value : V
  deriving DecidableEq, Repr

/-- The per-document emission record: the keys currently in the index for the document
(position `i` is emitIndex `i`) and the content hash of the emitted values. -/
structure EmissionRecord (K : Type) where
  keys : List K
  hash : Nat
  deriving DecidableEq, Repr

/-- The store partition behind an index: the index rows and the emission records by docID. -/
structure KeyStore (K D V : Type) where
  rows : List (Row K D V)
  records : D → Option (EmissionRecord K)

/-- One row operation issued to the store. -/
inductive RowWrite (K D V : Type) where
  | del (docID : D) (identity : K × Nat)
  | set (row : Row K D V)
  deriving DecidableEq, Repr

section IndexWriterModel

variable {K D V : Type} [DecidableEq K] [DecidableEq D] [DecidableEq V]

/-- The key and emitIndex of an emission: its identity within the document. -/
def Emission.identity (e : Emission K V) : K × Nat :=
  (e.key, e.emitIndex)

/-- The emission a stored row represents. -/
def Row.emission (r : Row K D V) : Emission K V :=
  { key := r.key, emitIndex := r.emitIndex, value := r.value }

/-- The row written for an emission of document `docID` at sequence `docSequence`. -/
def Emission.toRow (docID : D) (docSequence : Nat) (e : Emission K V) : Row K D V :=
  { key := e.key, docID := docID, sequence := docSequence, emitIndex := e.emitIndex,
    value := e.value }

/-- Whether a row belongs to document `docID` under the identity `(key, emitIndex)`. -/
def Row.hasIdentity (docID : D) (identity : K × Nat) (r : Row K D V) : Bool :=
  decide (r.docID = docID ∧ r.key = identity.1 ∧ r.emitIndex = identity.2)

/-- Modelled from the spec: the store's row deletion (`KeyStoreWriter::del`, not in the
header): the row of that document with that key and emitIndex is removed. -/
def KeyStore.del (st : KeyStore K D V) (docID : D) (identity : K × Nat) : KeyStore K D V :=
  { st with rows := st.rows.filter (fun r => !Row.hasIdentity docID identity r) }

/-- Modelled from the spec: the store's row write (`KeyStoreWriter::set`, not in the
header): the row is inserted, overwriting the row of the same document, key and emitIndex. -/
def KeyStore.set (st : KeyStore K D V) (row : Row K D V) : KeyStore K D V :=
  { st with
    rows := st.rows.filter (fun r => !Row.hasIdentity row.docID (row.key, row.emitIndex) r)
      ++ [row] }

/-- Modelled from the spec: reading the value stored for a document under a key and
emitIndex (the lookup behind `Index::getEntry`, declared only). -/
def KeyStore.get (st : KeyStore K D V) (docID : D) (identity : K × Nat) : Option V :=
  (st.rows.find? (Row.hasIdentity docID identity)).map (fun r => r.value)

/-- Perform one row operation. -/
def KeyStore.write (st : KeyStore K D V) : RowWrite K D V → KeyStore K D V
  | RowWrite.del docID identity => st.del docID identity
  | RowWrite.set row => st.set row

/-- The rows stored for a document, as emissions. -/
def KeyStore.rowsOf (st : KeyStore K D V) (docID : D) : List (Emission K V) :=
  (st.rows.filter (fun r => decide (r.docID = docID))).map Row.emission

/-- The identities a key list stands for: position `i` of the list is emitIndex `i`. -/
def identitiesFrom : Nat → List K → List (K × Nat)
  | _, [] => []
  | i, k :: ks => (k, i) :: identitiesFrom (i + 1) ks

/-- The emission set passed to `update`: index `i` of `keys` is emitIndex `i` and pairs
with `values[i]`. -/
def emissionsFrom : Nat → List K → List V → List (Emission K V)
  | i, k :: ks, v :: vs => { key := k, emitIndex := i, value := v } :: emissionsFrom (i + 1) ks vs
  | _, _, _ => []

namespace IndexWriter

/-- Modelled from the spec: `getKeysForDoc` (declared only): the keys and the hash of the
document's emission record, nothing when there is no record. -/
def getKeysForDoc (st : KeyStore K D V) (docID : D) : List K × Nat :=
  match st.records docID with
  | some r => (r.keys, r.hash)
  | none => ([], 0)

/-- Modelled from the spec: `setKeysForDoc` (declared only): the record of the document is
replaced by the given keys and hash, or deleted when the new key set is empty. -/
def setKeysForDoc (st : KeyStore K D V) (docID : D) (keys : List K) (hash : Nat) :
    KeyStore K D V :=
  { st with
    records := fun d =>
      if d = docID then (if keys = [] then none else some { keys := keys, hash := hash })
      else st.records d }

/-- What `update` hands back: the returned flag, the store after the call, the new value of
the `rowCount` reference, and the row operations it issued. -/
structure Result (K D V : Type) where
  changed : Bool
  store : KeyStore K D V
  rowCount : Nat
  writes : List (RowWrite K D V)

/-- The old identities absent from the new emission set: their rows are deleted. -/
def deleted (oldKeys : List K) (new : List (Emission K V)) : List (K × Nat) :=
  (identitiesFrom 0 oldKeys).filter (fun o => !(new.map Emission.identity).contains o)

/-- The new emissions whose identity is absent from the old record: they are inserted. -/
def inserted (oldKeys : List K) (new : List (Emission K V)) : List (Emission K V) :=
  new.filter (fun n => !(identitiesFrom 0 oldKeys).contains n.identity)

/-- Whether a new emission meets a row of the same identity holding another value: such a
row is overwritten. -/
def isOverwrite (st : KeyStore K D V) (docID : D) (oldKeys : List K) (n : Emission K V) :
    Bool :=
  (identitiesFrom 0 oldKeys).contains n.identity && decide (st.get docID n.identity ≠ some n.value)

/-- The new emissions that are written, in emission order: the inserted and the
overwritten ones. Emissions unchanged in key and value are left out. -/
def written (st : KeyStore K D V) (docID : D) (oldKeys : List K) (new : List (Emission K V)) :
    List (Emission K V) :=
  new.filter (fun n =>
    !(identitiesFrom 0 oldKeys).contains n.identity || isOverwrite st docID oldKeys n)

/-- Modelled from the spec: `IndexWriter::update` (declared only), section 4.3 of the spec.
1. load the document's emission record; 2. pair `keys[i]` with `values[i]` under emitIndex
`i`; 3. delete the rows of the old set absent from the new set, insert the new rows absent
from the old set by key and emitIndex, overwrite those whose value changed, leave the rest
untouched; 4. adjust the 64-bit `rowCount` by inserted minus deleted; 5. persist the new
record; 6. return true iff a row was inserted or deleted. `hashOf` is the content hash
kept in the record. -/
def update (hashOf : List V → Nat) (st : KeyStore K D V) (docID : D) (docSequence : Nat)
    (keys : List K) (values : List V) (rowCount : Nat) : Result K D V :=
  let oldKeys := (getKeysForDoc st docID).1
  let new := emissionsFrom 0 keys values
  let dels := deleted oldKeys new
  let ins := inserted oldKeys new
  let writes : List (RowWrite K D V) :=
    dels.map (RowWrite.del docID)
      ++ (written st docID oldKeys new).map (fun n => RowWrite.set (n.toRow docID docSequence))
  let st1 := writes.foldl KeyStore.write st
  { changed := decide (0 < ins.length ∨ 0 < dels.length)
    store := setKeysForDoc st1 docID keys (hashOf values)
    rowCount := Int.toNat (((rowCount : Int) + ins.length - dels.length) % 2 ^ 64)
    writes := writes }

end IndexWriter

/-- The store invariant for one document: the identities of its stored rows are, each
once, the identities listed by its emission record. -/
def KeyStore.Consistent (st : KeyStore K D V) (docID : D) : Prop :=
  ((st.rowsOf docID).map Emission.identity).Perm
    (identitiesFrom 0 (IndexWriter.getKeysForDoc st docID).1)

instance (st : KeyStore K D V) (docID : D) : Decidable (st.Consistent docID) := by
  unfold KeyStore.Consistent
  infer_instance

/-- The empty store. -/
def KeyStore.empty : KeyStore K D V :=
  { rows := [], records := fun _ => none }

/-- A small store: document 7 emitted key 10 with value 100 at sequence 1. -/
def KeyStore.sample : KeyStore Nat Nat Nat :=
  { rows := [{ key := 10, docID := 7, sequence := 1, emitIndex := 0, value := 100 }]
    records := fun d => if d = 7 then some { keys := [10], hash := 0 } else none }

end IndexWriterModel

/-! ## Theorems -/

section KeyRangeTheorems

variable {α : Type}

/-- C1: `isKeyPastEnd k` is true exactly when `k > end`, or `k == end` and `inclusiveEnd`
is false; for start 5 and end 10 an exclusive end makes key 10 past the end and key 9 not,
an inclusive end makes key 10 not past the end and key 11 past it. -/
theorem KeyRange.isKeyPastEnd_iff :
    (∀ (β : Type) [LinearOrder β] (r : KeyRange β) (k : β),
      r.isKeyPastEnd k = true ↔ (k > r.«end» ∨ (k = r.«end» ∧ r.inclusiveEnd = false))) ∧
    (KeyRange.ctor (5 : Nat) 10 false).isKeyPastEnd 10 = true ∧
    (KeyRange.ctor (5 : Nat) 10 false).isKeyPastEnd 9 = false ∧
    (KeyRange.ctor (5 : Nat) 10 true).isKeyPastEnd 10 = false ∧
    (KeyRange.ctor (5 : Nat) 10 true).isKeyPastEnd 11 = true := by
  refine ⟨?_, by decide, by decide, by decide, by decide⟩
  intro β _ r k
  simp [KeyRange.isKeyPastEnd]

/-- C2: `a == b` holds exactly when the starts are equal and the ends are equal; the flag
`inclusiveEnd` takes no part, so ranges differing only in it compare equal. -/
theorem KeyRange.operatorEq_iff [DecidableEq α] :
    (∀ a b : KeyRange α, a.operatorEq b = true ↔ (a.start = b.start ∧ a.«end» = b.«end»)) ∧
    (∀ (s e : α) (i j : Bool), (KeyRange.ctor s e i).operatorEq (KeyRange.ctor s e j) = true) := by
  constructor
  · intro a b
    simp [KeyRange.operatorEq]
  · intro s e i j
    simp [KeyRange.operatorEq, KeyRange.ctor]

/-- C7: `isKeyPastEnd` is monotonic in the key: once true for `k`, it is true for every
`k'` with `k ≤ k'`. -/
theorem KeyRange.isKeyPastEnd_mono [LinearOrder α] (r : KeyRange α) (k k' : α)
    (hle : k ≤ k') (hk : r.isKeyPastEnd k = true) : r.isKeyPastEnd k' = true := by
  simp only [KeyRange.isKeyPastEnd, Bool.or_eq_true, Bool.and_eq_true, decide_eq_true_eq,
    Bool.not_eq_true'] at hk ⊢
  rcases hk with hgt | ⟨heq, hex⟩
  · exact Or.inl (lt_of_lt_of_le hgt hle)
  · rcases lt_or_eq_of_le hle with hlt | hkk
    · exact Or.inl (heq ▸ hlt)
    · exact Or.inr ⟨hkk ▸ heq, hex⟩

/-- Witness for C7 on the range 5..10 with an exclusive end, at keys 10 and 12. -/
theorem KeyRange.isKeyPastEnd_mono_witness :
    (10 : Nat) ≤ 12 ∧ (KeyRange.ctor (5 : Nat) 10 false).isKeyPastEnd 10 = true ∧
      (KeyRange.ctor (5 : Nat) 10 false).isKeyPastEnd 12 = true :=
  ⟨by decide, by decide,
    KeyRange.isKeyPastEnd_mono (KeyRange.ctor (5 : Nat) 10 false) 10 12 (by decide) (by decide)⟩

/-- C8: the single-key constructor gives `start == k`, `end == k`, `inclusiveEnd == true`;
the two-key constructor without an inclusivity argument gives `inclusiveEnd == true`. -/
theorem KeyRange.ctor_defaults :
    (∀ k : α, (KeyRange.ctorSingle k).start = k ∧ (KeyRange.ctorSingle k).«end» = k ∧
      (KeyRange.ctorSingle k).inclusiveEnd = true) ∧
    (∀ s e : α, (KeyRange.ctorDefault s e).inclusiveEnd = true ∧
      (KeyRange.ctorDefault s e).start = s ∧ (KeyRange.ctorDefault s e).«end» = e) := by
  constructor
  · intro k
    exact ⟨rfl, rfl, rfl⟩
  · intro s e
    exact ⟨rfl, rfl, rfl⟩

end KeyRangeTheorems

section EnumeratorTheorems

variable {S α E : Type}

/-- C9: the default `approve` hook accepts every key, so filtering a scan by it removes
nothing. -/
theorem IndexEnumerator.approve_accepts_all (e : IndexEnumerator α E) :
    (∀ key : α, e.approve key = true) ∧ (∀ scan : List α, scan.filter e.approve = scan) := by
  constructor
  · intro key
    rfl
  · intro scan
    exact List.filter_eq_self.mpr (fun _ _ => rfl)

end EnumeratorTheorems

section IndexTheorems

variable {S : Type}

theorem Index.addUser_userCount (ix : Index S) (h : ix._userCount + 1 < uintModulus) :
    ix.addUser._userCount = ix._userCount + 1 := by
  simp only [Index.addUser]
  exact Nat.mod_eq_of_lt h

theorem Index.removeUser_userCount (ix : Index S) (hpos : 0 < ix._userCount)
    (h : ix._userCount < uintModulus) : ix.removeUser._userCount + 1 = ix._userCount := by
  simp only [Index.removeUser, uintModulus] at *
  omega

theorem Index.removeUser_userCount_zero (ix : Index S) (h0 : ix._userCount = 0) :
    ix.removeUser._userCount = uintModulus - 1 := by
  simp [Index.removeUser, uintModulus, h0]

theorem Index.run_cons (ix : Index S) (c : UserCall) (calls : List UserCall) :
    ix.run (c :: calls) = (ix.call c).run calls := rfl

/-- As long as no prefix of the calls removes more users than the counter holds and the
counter never reaches `2 ^ 32`, the counter is the number of users added and not yet
removed, and the store is left alone. -/
theorem Index.run_userCount (calls : List UserCall) :
    ∀ ix : Index S,
      (∀ j, (calls.take j).count UserCall.removeUser
            ≤ ix._userCount + (calls.take j).count UserCall.addUser ∧
          ix._userCount + (calls.take j).count UserCall.addUser < uintModulus) →
      (ix.run calls)._userCount + calls.count UserCall.removeUser
        = ix._userCount + calls.count UserCall.addUser := by
  induction calls with
  | nil => intro ix _; simp [Index.run]
  | cons c rest ih =>
    intro ix hpre
    rw [Index.run_cons]
    have h1 := hpre 1
    cases c with
    | addUser =>
      simp at h1
      have hc : (ix.call UserCall.addUser)._userCount = ix._userCount + 1 :=
        Index.addUser_userCount ix h1
      have := ih (ix.call UserCall.addUser) (by
        intro j
        have hj := hpre (j + 1)
        simp at hj
        rw [hc]
        omega)
      simp
      omega
    | removeUser =>
      simp at h1
      have hc : (ix.call UserCall.removeUser)._userCount + 1 = ix._userCount :=
        Index.removeUser_userCount ix h1.1 h1.2
      have := ih (ix.call UserCall.removeUser) (by
        intro j
        have hj := hpre (j + 1)
        simp at hj
        omega)
      simp
      omega

theorem Index.count_take_addThenRemove (N i : Nat) :
    ((Index.addThenRemove N).take i).count UserCall.addUser = min i N ∧
    ((Index.addThenRemove N).take i).count UserCall.removeUser = min (i - N) N := by
  simp [Index.addThenRemove, List.take_append_eq_append_take, List.take_replicate,
    List.count_replicate]

theorem Index.run_replicate_removeUser (ix : Index S) (k : Nat) (hk : k ≤ ix._userCount)
    (h : ix._userCount < uintModulus) :
    (ix.run (List.replicate k UserCall.removeUser))._userCount + k = ix._userCount := by
  have := Index.run_userCount (List.replicate k UserCall.removeUser) ix (by
    intro j
    simp [List.take_replicate, List.count_replicate]
    omega)
  simpa [List.count_replicate] using this

/-- C3: starting from user count 0, during `N` calls of `addUser` followed by `N` calls of
`removeUser` (`1 ≤ N < 2 ^ 32`), after every step `isBusy` equals `_userCount > 0`, it is
true exactly when some added user has not yet been removed (so at every step strictly
between the first call and the last), and it is false after the last `removeUser`. -/
theorem Index.busy_accounting (ix : Index S) (h0 : ix._userCount = 0) (N : Nat)
    (h1 : 1 ≤ N) (hN : N < 2 ^ 32) (i : Nat) (hi : i ≤ 2 * N) :
    (ix.run ((Index.addThenRemove N).take i)).isBusy
        = decide ((ix.run ((Index.addThenRemove N).take i))._userCount > 0) ∧
    ((ix.run ((Index.addThenRemove N).take i)).isBusy = true ↔
        ((Index.addThenRemove N).take i).count UserCall.removeUser
          < ((Index.addThenRemove N).take i).count UserCall.addUser) ∧
    (0 < i → i < 2 * N → (ix.run ((Index.addThenRemove N).take i)).isBusy = true) ∧
    (i = 2 * N → (ix.run ((Index.addThenRemove N).take i)).isBusy = false) := by
  have hcount := Index.run_userCount ((Index.addThenRemove N).take i) ix (by
    intro j
    rw [List.take_take, (Index.count_take_addThenRemove N (min j i)).1,
      (Index.count_take_addThenRemove N (min j i)).2, h0]
    simp only [uintModulus]
    omega)
  rw [(Index.count_take_addThenRemove N i).1, (Index.count_take_addThenRemove N i).2, h0]
    at hcount
  rw [(Index.count_take_addThenRemove N i).1, (Index.count_take_addThenRemove N i).2]
  refine ⟨rfl, ?_, ?_, ?_⟩
  · simp only [Index.isBusy, decide_eq_true_eq]
    omega
  · intro hpos hlt
    simp only [Index.isBusy, decide_eq_true_eq]
    omega
  · intro hlast
    simp only [Index.isBusy, decide_eq_false_iff_not]
    omega

/-- Witness for C3: two users, after the third of the four calls the index is busy. -/
theorem Index.busy_accounting_witness :
    (Index.run (Index.mk () 0) ((Index.addThenRemove 2).take 3)).isBusy = true :=
  (Index.busy_accounting (Index.mk () 0) rfl 2 (by decide) (by decide) 3 (by decide)).2.2.1
    (by decide) (by decide)

/-- C10: on an index whose user count is 0, `removeUser` sets the count to `2 ^ 32 - 1` and
makes `isBusy` true; the index stays busy through fewer than `2 ^ 32 - 1` further
`removeUser` calls and is not busy after exactly `2 ^ 32 - 1` of them, or after one
`addUser`; `removeUser` and `addUser` undo each other on every 32-bit count. -/
theorem Index.removeUser_wraps_at_zero (ix : Index S) (h0 : ix._userCount = 0) :
    ix.removeUser._userCount = 2 ^ 32 - 1 ∧
    ix.removeUser.isBusy = true ∧
    (∀ k, k < 2 ^ 32 - 1 →
      (ix.removeUser.run (List.replicate k UserCall.removeUser)).isBusy = true) ∧
    (ix.removeUser.run (List.replicate (2 ^ 32 - 1) UserCall.removeUser)).isBusy = false ∧
    ix.removeUser.addUser.isBusy = false ∧
    (∀ jx : Index S, jx._userCount < 2 ^ 32 →
      jx.addUser.removeUser = jx ∧ jx.removeUser.addUser = jx) := by
  have hc : ix.removeUser._userCount = 2 ^ 32 - 1 := Index.removeUser_userCount_zero ix h0
  refine ⟨hc, ?_, ?_, ?_, ?_, ?_⟩
  · simp [Index.isBusy, hc]
  · intro k hk
    have := Index.run_replicate_removeUser ix.removeUser k (by omega)
      (by simp only [uintModulus]; omega)
    simp only [Index.isBusy, decide_eq_true_eq]
    omega
  · have := Index.run_replicate_removeUser ix.removeUser (2 ^ 32 - 1) (by omega)
      (by simp only [uintModulus]; omega)
    simp only [Index.isBusy, decide_eq_false_iff_not]
    omega
  · simp [Index.isBusy, Index.addUser, hc, uintModulus]
  · intro jx hj
    obtain ⟨st, c⟩ := jx
    simp only [Index.addUser, Index.removeUser, uintModulus, Index.mk.injEq, true_and] at hj ⊢
    omega

/-- Witness for C10 on an index with user count 0: the count after `removeUser`. -/
theorem Index.removeUser_wraps_at_zero_witness :
    (Index.mk () 0).removeUser._userCount = 2 ^ 32 - 1 :=
  (Index.removeUser_wraps_at_zero (Index.mk () 0) rfl).1

end IndexTheorems

section EnumeratorLifetime

variable {S α E : Type}

/-- C4: destroying an `IndexEnumerator` performs exactly one `removeUser` on its index,
whatever state the enumerator is in (any range position, any cursor state, closed or not):
the count goes down by one modulo `2 ^ 32`, by exactly one whenever it was positive, and
the result differs from both no call and two calls; `close` changes the store cursor only
and leaves the index, user count included, as it was. -/
theorem IndexEnumerator.destroy_removes_one_user (dbClose : E → E)
    (h : EnumeratorHeap S α E) (hwf : h.index._userCount < 2 ^ 32) :
    IndexEnumerator.destroy h = h.index.removeUser ∧
    (IndexEnumerator.destroy h)._userCount = (h.index._userCount + (2 ^ 32 - 1)) % 2 ^ 32 ∧
    (0 < h.index._userCount →
      (IndexEnumerator.destroy h)._userCount + 1 = h.index._userCount) ∧
    IndexEnumerator.destroy h ≠ h.index ∧
    IndexEnumerator.destroy h ≠ h.index.removeUser.removeUser ∧
    (IndexEnumerator.destroy h)._store = h.index._store ∧
    (IndexEnumerator.close dbClose h).index = h.index ∧
    (IndexEnumerator.close dbClose h).enumerator._dbEnum = dbClose h.enumerator._dbEnum ∧
    IndexEnumerator.destroy (IndexEnumerator.close dbClose h) = IndexEnumerator.destroy h := by
  obtain ⟨⟨st, c⟩, e⟩ := h
  simp only [IndexEnumerator.destroy, IndexEnumerator.close, Index.removeUser, uintModulus,
    ne_eq, Index.mk.injEq, true_and, and_true] at hwf ⊢
  refine ⟨?_, ?_, ?_⟩
  · intro hpos
    omega
  · omega
  · omega

/-- Witness for C4: an index with three users, one of them a positioned enumerator; after
the enumerator is destroyed two users remain. -/
theorem IndexEnumerator.destroy_removes_one_user_witness :
    (IndexEnumerator.destroy
      (EnumeratorHeap.mk (Index.mk () 3) (IndexEnumerator.mk ([] : List (KeyRange Nat)) 0 true)))._userCount
      + 1 = 3 :=
  (IndexEnumerator.destroy_removes_one_user not
    (EnumeratorHeap.mk (Index.mk () 3) (IndexEnumerator.mk ([] : List (KeyRange Nat)) 0 true))
    (by decide)).2.2.1 (by decide)

end EnumeratorLifetime

section IndexWriterLemmas

variable {K D V : Type} [DecidableEq K] [DecidableEq D] [DecidableEq V]

theorem contains_iff {β : Type} [BEq β] [LawfulBEq β] (l : List β) (a : β) :
    l.contains a = true ↔ a ∈ l := by
  simp [List.contains]

theorem contains_false_iff {β : Type} [BEq β] [LawfulBEq β] (l : List β) (a : β) :
    l.contains a = false ↔ a ∉ l := by
  simp [List.contains]

omit [DecidableEq K] in
theorem identitiesFrom_index_ge (s : Nat) (ks : List K) (p : K × Nat)
    (hp : p ∈ identitiesFrom s ks) : s ≤ p.2 := by
  induction ks generalizing s with
  | nil => simp [identitiesFrom] at hp
  | cons k ks ih =>
    simp only [identitiesFrom, List.mem_cons] at hp
    rcases hp with rfl | hp
    · exact Nat.le_refl _
    · exact Nat.le_of_succ_le (ih (s + 1) hp)

omit [DecidableEq K] in
theorem identitiesFrom_nodup (s : Nat) (ks : List K) : (identitiesFrom s ks).Nodup := by
  induction ks generalizing s with
  | nil => simp [identitiesFrom]
  | cons k ks ih =>
    simp only [identitiesFrom, List.nodup_cons]
    refine ⟨?_, ih (s + 1)⟩
    intro hmem
    have := identitiesFrom_index_ge (s + 1) ks (k, s) hmem
    simp at this

omit [DecidableEq K] in
theorem identitiesFrom_length (s : Nat) (ks : List K) :
    (identitiesFrom s ks).length = ks.length := by
  induction ks generalizing s with
  | nil => rfl
  | cons k ks ih => simp [identitiesFrom, ih]

omit [DecidableEq K] [DecidableEq V] in
theorem emissionsFrom_index_ge (s : Nat) (ks : List K) (vs : List V) (e : Emission K V)
    (he : e ∈ emissionsFrom s ks vs) : s ≤ e.emitIndex := by
  induction ks generalizing s vs with
  | nil => simp [emissionsFrom] at he
  | cons k ks ih =>
    cases vs with
    | nil => simp [emissionsFrom] at he
    | cons v vs =>
      simp only [emissionsFrom, List.mem_cons] at he
      rcases he with rfl | he
      · exact Nat.le_refl _
      · exact Nat.le_of_succ_le (ih (s + 1) vs he)

/-- Two emissions of one call with the same emitIndex are the same emission. -/
theorem emissionsFrom_index_inj (s : Nat) (ks : List K) (vs : List V) (a b : Emission K V)
    (ha : a ∈ emissionsFrom s ks vs) (hb : b ∈ emissionsFrom s ks vs)
    (hab : a.emitIndex = b.emitIndex) : a = b := by
  induction ks generalizing s vs with
  | nil => simp [emissionsFrom] at ha
  | cons k ks ih =>
    cases vs with
    | nil => simp [emissionsFrom] at ha
    | cons v vs =>
      simp only [emissionsFrom, List.mem_cons] at ha hb
      rcases ha with rfl | ha <;> rcases hb with rfl | hb
      · rfl
      · have := emissionsFrom_index_ge (s + 1) ks vs b hb
        simp at hab
        omega
      · have := emissionsFrom_index_ge (s + 1) ks vs a ha
        simp at hab
        omega
      · exact ih (s + 1) vs ha hb

omit [DecidableEq K] [DecidableEq V] in
theorem emissionsFrom_identity_nodup (s : Nat) (ks : List K) (vs : List V) :
    ((emissionsFrom s ks vs).map Emission.identity).Nodup := by
  induction ks generalizing s vs with
  | nil => simp [emissionsFrom]
  | cons k ks ih =>
    cases vs with
    | nil => simp [emissionsFrom]
    | cons v vs =>
      simp only [emissionsFrom, List.map_cons, List.nodup_cons, List.mem_map, not_exists,
        not_and]
      refine ⟨?_, ih (s + 1) vs⟩
      intro e he hid
      have := emissionsFrom_index_ge (s + 1) ks vs e he
      simp [Emission.identity] at hid
      omega

omit [DecidableEq K] [DecidableEq V] in
theorem emissionsFrom_nodup (s : Nat) (ks : List K) (vs : List V) :
    (emissionsFrom s ks vs).Nodup :=
  List.Nodup.of_map _ (emissionsFrom_identity_nodup s ks vs)

omit [DecidableEq K] [DecidableEq V] in
theorem emissionsFrom_identity (s : Nat) (ks : List K) (vs : List V)
    (hlen : ks.length ≤ vs.length) :
    (emissionsFrom s ks vs).map Emission.identity = identitiesFrom s ks := by
  induction ks generalizing s vs with
  | nil => simp [emissionsFrom, identitiesFrom]
  | cons k ks ih =>
    cases vs with
    | nil => simp at hlen
    | cons v vs =>
      simp only [emissionsFrom, identitiesFrom, List.map_cons, Emission.identity,
        List.cons.injEq, true_and]
      exact ih (s + 1) vs (by simpa using hlen)

omit [DecidableEq V] in
theorem Row.hasIdentity_eq (docID : D) (identity : K × Nat) (r : Row K D V) :
    Row.hasIdentity docID identity r
      = (decide (r.docID = docID) && decide (r.emission.identity = identity)) := by
  obtain ⟨k, i⟩ := identity
  simp [Row.hasIdentity, Row.emission, Emission.identity, Bool.decide_and]

omit [DecidableEq V] in
theorem Row.any_hasIdentity (docID : D) (ids : List (K × Nat)) (r : Row K D V) :
    ids.any (fun id => Row.hasIdentity docID id r)
      = (decide (r.docID = docID) && ids.contains r.emission.identity) := by
  induction ids with
  | nil => simp
  | cons id ids ih =>
    rw [List.any_cons, ih, Row.hasIdentity_eq]
    by_cases hd : r.docID = docID <;> by_cases hi : r.emission.identity = id <;>
      simp [hd, hi, List.contains_cons, eq_comm]

omit [DecidableEq V] in
/-- Deleting a list of identities of one document keeps exactly the rows matching none. -/
theorem KeyStore.foldl_del (docID : D) (ids : List (K × Nat)) (st : KeyStore K D V) :
    ((ids.map (RowWrite.del docID)).foldl KeyStore.write st).rows
        = st.rows.filter (fun r => !ids.any (fun id => Row.hasIdentity docID id r)) ∧
    ((ids.map (RowWrite.del docID)).foldl KeyStore.write st).records = st.records := by
  induction ids generalizing st with
  | nil => simp
  | cons id ids ih =>
    simp only [List.map_cons, List.foldl_cons, KeyStore.write]
    obtain ⟨h1, h2⟩ := ih (st.del docID id)
    refine ⟨?_, by rw [h2]; rfl⟩
    rw [h1]
    simp only [KeyStore.del, List.filter_filter, List.any_cons, Bool.not_or]
    exact List.filter_congr (fun r _ => Bool.and_comm _ _)

omit [DecidableEq V] in
/-- Writing emissions with pairwise distinct identities replaces the rows they match and
appends the written rows in order. -/
theorem KeyStore.foldl_set (docID : D) (seq : Nat) (es : List (Emission K V))
    (hnd : (es.map Emission.identity).Nodup) (st : KeyStore K D V) :
    ((es.map (fun n => RowWrite.set (n.toRow docID seq))).foldl KeyStore.write st).rows
        = st.rows.filter (fun r => !es.any (fun e => Row.hasIdentity docID e.identity r))
          ++ es.map (Emission.toRow docID seq) ∧
    ((es.map (fun n => RowWrite.set (n.toRow docID seq))).foldl KeyStore.write st).records
        = st.records := by
  induction es generalizing st with
  | nil => simp
  | cons e es ih =>
    simp only [List.map_cons, List.nodup_cons] at hnd
    simp only [List.map_cons, List.foldl_cons, KeyStore.write]
    obtain ⟨h1, h2⟩ := ih hnd.2 (st.set (e.toRow docID seq))
    refine ⟨?_, by rw [h2]; rfl⟩
    rw [h1]
    have hrow : ([e.toRow docID seq].filter
        (fun r => !es.any (fun e' => Row.hasIdentity docID e'.identity r)))
        = [e.toRow docID seq] := by
      rw [List.filter_eq_self]
      intro r hr
      simp only [List.mem_singleton] at hr
      subst hr
      simp only [Bool.not_eq_true', List.any_eq_false]
      intro e' he'
      rw [Row.hasIdentity_eq]
      have hne : e.identity ≠ e'.identity := by
        intro heq
        exact hnd.1 (heq ▸ List.mem_map_of_mem _ he')
      simpa [Emission.toRow, Row.emission, Emission.identity] using hne
    simp only [KeyStore.set, List.filter_append, List.filter_filter, hrow, List.any_cons,
      Bool.not_or, List.append_assoc, List.singleton_append]
    congr 1
    exact List.filter_congr (fun r _ => Bool.and_comm _ _)

omit [DecidableEq V] in
theorem Row.any_hasIdentity_emissions (docID : D) (es : List (Emission K V)) (r : Row K D V) :
    es.any (fun e => Row.hasIdentity docID e.identity r)
      = (decide (r.docID = docID) && (es.map Emission.identity).contains r.emission.identity) := by
  rw [← Row.any_hasIdentity]
  induction es with
  | nil => rfl
  | cons e es ih => simp only [List.any_cons, List.map_cons, ih]

theorem IndexWriter.written_identity_nodup (st : KeyStore K D V) (docID : D)
    (oldKeys : List K) (keys : List K) (values : List V) :
    ((IndexWriter.written st docID oldKeys (emissionsFrom 0 keys values)).map
      Emission.identity).Nodup :=
  List.Nodup.sublist ((List.filter_sublist _).map _) (emissionsFrom_identity_nodup 0 keys values)

/-- The rows of the store after `update`: the rows matching neither a deleted identity nor
a written emission, followed by the written rows. -/
theorem IndexWriter.update_rows (hashOf : List V → Nat) (st : KeyStore K D V) (docID : D)
    (docSequence : Nat) (keys : List K) (values : List V) (rowCount : Nat) :
    (IndexWriter.update hashOf st docID docSequence keys values rowCount).store.rows
      = st.rows.filter (fun r =>
          !(IndexWriter.deleted (IndexWriter.getKeysForDoc st docID).1
              (emissionsFrom 0 keys values)).any (fun id => Row.hasIdentity docID id r)
          && !(IndexWriter.written st docID (IndexWriter.getKeysForDoc st docID).1
              (emissionsFrom 0 keys values)).any
                (fun e => Row.hasIdentity docID e.identity r))
        ++ (IndexWriter.written st docID (IndexWriter.getKeysForDoc st docID).1
              (emissionsFrom 0 keys values)).map (Emission.toRow docID docSequence) := by
  simp only [IndexWriter.update, IndexWriter.setKeysForDoc, List.foldl_append]
  rw [(KeyStore.foldl_set docID docSequence _
    (IndexWriter.written_identity_nodup st docID _ keys values) _).1,
    (KeyStore.foldl_del docID _ st).1, List.filter_filter]
  congr 1
  exact List.filter_congr (fun r _ => Bool.and_comm _ _)

/-- The rows of the updated document after `update`, as emissions: the old rows whose
identity was neither deleted nor written, followed by the written emissions. -/
theorem IndexWriter.update_rowsOf (hashOf : List V → Nat) (st : KeyStore K D V) (docID : D)
    (docSequence : Nat) (keys : List K) (values : List V) (rowCount : Nat) :
    (IndexWriter.update hashOf st docID docSequence keys values rowCount).store.rowsOf docID
      = (st.rowsOf docID).filter (fun e =>
          !(IndexWriter.deleted (IndexWriter.getKeysForDoc st docID).1
              (emissionsFrom 0 keys values)).contains e.identity
          && !((IndexWriter.written st docID (IndexWriter.getKeysForDoc st docID).1
              (emissionsFrom 0 keys values)).map Emission.identity).contains e.identity)
        ++ IndexWriter.written st docID (IndexWriter.getKeysForDoc st docID).1
              (emissionsFrom 0 keys values) := by
  rw [KeyStore.rowsOf, IndexWriter.update_rows, List.filter_append, List.map_append]
  congr 1
  · rw [KeyStore.rowsOf, List.filter_map, List.filter_filter, List.filter_filter]
    congr 1
    apply List.filter_congr
    intro r _
    rw [Row.any_hasIdentity_emissions, Row.any_hasIdentity]
    by_cases hd : r.docID = docID <;> simp [hd]
  · rw [List.filter_eq_self.mpr, List.map_map]
    · conv_rhs => rw [← List.map_id (IndexWriter.written _ _ _ _)]
      apply List.map_congr_left
      intro e _
      rfl
    · intro r hr
      obtain ⟨e, _, rfl⟩ := List.mem_map.mp hr
      simp [Emission.toRow]

omit [DecidableEq K] [DecidableEq V] in
theorem KeyStore.Consistent.nodup {st : KeyStore K D V} {docID : D}
    (h : st.Consistent docID) : ((st.rowsOf docID).map Emission.identity).Nodup :=
  (List.Perm.nodup_iff h).mpr (identitiesFrom_nodup 0 _)

omit [DecidableEq K] [DecidableEq V] in
/-- Two stored rows of one document with the same key and emitIndex are the same row. -/
theorem KeyStore.rowsOf_identity_inj {st : KeyStore K D V} {docID : D}
    (hnd : ((st.rowsOf docID).map Emission.identity).Nodup) (a b : Emission K V)
    (ha : a ∈ st.rowsOf docID) (hb : b ∈ st.rowsOf docID) (hab : a.identity = b.identity) :
    a = b :=
  List.inj_on_of_nodup_map hnd ha hb hab

omit [DecidableEq V] in
/-- Reading the value under an identity finds exactly the stored row of that identity. -/
theorem KeyStore.get_eq_some_iff (st : KeyStore K D V) (docID : D)
    (hnd : ((st.rowsOf docID).map Emission.identity).Nodup) (e : Emission K V) :
    st.get docID e.identity = some e.value ↔ e ∈ st.rowsOf docID := by
  have hmem : ∀ r : Row K D V, r ∈ st.rows → Row.hasIdentity docID e.identity r = true →
      r.emission ∈ st.rowsOf docID ∧ r.emission.identity = e.identity := by
    intro r hr hp
    rw [Row.hasIdentity_eq] at hp
    simp only [Bool.and_eq_true, decide_eq_true_eq] at hp
    refine ⟨?_, hp.2⟩
    exact List.mem_map_of_mem _ (List.mem_filter.mpr ⟨hr, by simpa using hp.1⟩)
  constructor
  · intro hget
    simp only [KeyStore.get, Option.map_eq_some'] at hget
    obtain ⟨r, hfind, hval⟩ := hget
    obtain ⟨hin, hid⟩ := hmem r (List.mem_of_find?_eq_some hfind) (List.find?_some hfind)
    have : r.emission = e := by
      obtain ⟨k, i, v⟩ := e
      simp only [Row.emission, Emission.identity, Prod.mk.injEq] at hid hval ⊢
      simp [hid.1, hid.2, hval]
    exact this ▸ hin
  · intro he
    obtain ⟨r, hr, hre⟩ := List.mem_map.mp he
    obtain ⟨hrows, hdoc⟩ := List.mem_filter.mp hr
    have hp : Row.hasIdentity docID e.identity r = true := by
      rw [Row.hasIdentity_eq, hre]
      simpa using hdoc
    cases hfind : st.rows.find? (Row.hasIdentity docID e.identity) with
    | none =>
      rw [List.find?_eq_none] at hfind
      exact absurd hp (hfind r hrows)
    | some r0 =>
      obtain ⟨hin, hid⟩ := hmem r0 (List.mem_of_find?_eq_some hfind) (List.find?_some hfind)
      have h0 : r0.emission = e := KeyStore.rowsOf_identity_inj hnd _ _ hin he hid
      simp only [KeyStore.get, hfind, Option.map_some', Option.some.injEq]
      rw [← h0]
      rfl

omit [DecidableEq V] in
theorem IndexWriter.mem_deleted (oldKeys : List K) (new : List (Emission K V))
    (id : K × Nat) :
    id ∈ IndexWriter.deleted oldKeys new
      ↔ id ∈ identitiesFrom 0 oldKeys ∧ id ∉ new.map Emission.identity := by
  rw [IndexWriter.deleted, List.mem_filter, Bool.not_eq_true', contains_false_iff]

omit [DecidableEq V] in
theorem IndexWriter.mem_inserted (oldKeys : List K) (new : List (Emission K V))
    (n : Emission K V) :
    n ∈ IndexWriter.inserted oldKeys new
      ↔ n ∈ new ∧ n.identity ∉ identitiesFrom 0 oldKeys := by
  rw [IndexWriter.inserted, List.mem_filter, Bool.not_eq_true', contains_false_iff]

/-- An emission is left unwritten exactly when its identity is in the old record and the
stored value is the emitted value. -/
theorem IndexWriter.not_written_iff (st : KeyStore K D V) (docID : D) (oldKeys : List K)
    (n : Emission K V) :
    (!(identitiesFrom 0 oldKeys).contains n.identity
        || IndexWriter.isOverwrite st docID oldKeys n) = false
      ↔ n.identity ∈ identitiesFrom 0 oldKeys ∧ st.get docID n.identity = some n.value := by
  by_cases hin : n.identity ∈ identitiesFrom 0 oldKeys
  · have hc : (identitiesFrom 0 oldKeys).contains n.identity = true := (contains_iff _ _).mpr hin
    simp [IndexWriter.isOverwrite, hc, hin]
  · have hc : (identitiesFrom 0 oldKeys).contains n.identity = false :=
      (contains_false_iff _ _).mpr hin
    simp [IndexWriter.isOverwrite, hc, hin]

theorem IndexWriter.mem_written (st : KeyStore K D V) (docID : D) (oldKeys : List K)
    (new : List (Emission K V)) (n : Emission K V) :
    n ∈ IndexWriter.written st docID oldKeys new
      ↔ n ∈ new ∧ ¬ (n.identity ∈ identitiesFrom 0 oldKeys
          ∧ st.get docID n.identity = some n.value) := by
  rw [IndexWriter.written, List.mem_filter, ← IndexWriter.not_written_iff st docID oldKeys n,
    Bool.not_eq_false]

/-- Under the store invariant, an old row survives `update` untouched exactly when it is a
new emission that is not written. -/
theorem IndexWriter.kept_mem_iff (st : KeyStore K D V) (docID : D) (keys : List K)
    (values : List V) (hcons : st.Consistent docID) (e : Emission K V) :
    e ∈ (st.rowsOf docID).filter (fun e =>
          !(IndexWriter.deleted (IndexWriter.getKeysForDoc st docID).1
              (emissionsFrom 0 keys values)).contains e.identity
          && !((IndexWriter.written st docID (IndexWriter.getKeysForDoc st docID).1
              (emissionsFrom 0 keys values)).map Emission.identity).contains e.identity)
      ↔ e ∈ (emissionsFrom 0 keys values).filter (fun n =>
          !(!(identitiesFrom 0 (IndexWriter.getKeysForDoc st docID).1).contains n.identity
            || IndexWriter.isOverwrite st docID (IndexWriter.getKeysForDoc st docID).1 n)) := by
  have hnd := hcons.nodup
  have hids : ∀ id, id ∈ (st.rowsOf docID).map Emission.identity
      ↔ id ∈ identitiesFrom 0 (IndexWriter.getKeysForDoc st docID).1 :=
    fun id => List.Perm.mem_iff hcons
  rw [List.mem_filter, List.mem_filter, Bool.and_eq_true, Bool.not_eq_true',
    Bool.not_eq_true', Bool.not_eq_true', contains_false_iff, contains_false_iff,
    IndexWriter.not_written_iff, IndexWriter.mem_deleted]
  constructor
  · rintro ⟨heOld, hdel, hwr⟩
    have hin : e.identity ∈ identitiesFrom 0 (IndexWriter.getKeysForDoc st docID).1 :=
      (hids _).mp (List.mem_map_of_mem _ heOld)
    have hnew : e.identity ∈ (emissionsFrom 0 keys values).map Emission.identity := by
      by_contra hno
      exact hdel ⟨hin, hno⟩
    obtain ⟨n, hn, hne⟩ := List.mem_map.mp hnew
    have hn_in : n.identity ∈ identitiesFrom 0 (IndexWriter.getKeysForDoc st docID).1 :=
      hne ▸ hin
    have hget : st.get docID n.identity = some n.value := by
      by_contra hg
      apply hwr
      rw [← hne]
      exact List.mem_map_of_mem _
        ((IndexWriter.mem_written st docID _ _ n).mpr ⟨hn, fun h => hg h.2⟩)
    have hnOld : n ∈ st.rowsOf docID := (KeyStore.get_eq_some_iff st docID hnd n).mp hget
    have : n = e := KeyStore.rowsOf_identity_inj hnd _ _ hnOld heOld hne
    subst this
    exact ⟨hn, hn_in, hget⟩
  · rintro ⟨hn, hin, hget⟩
    have hnOld : e ∈ st.rowsOf docID := (KeyStore.get_eq_some_iff st docID hnd e).mp hget
    refine ⟨hnOld, ?_, ?_⟩
    · intro hdel
      exact hdel.2 (List.mem_map_of_mem _ hn)
    · intro hw
      obtain ⟨m, hm, hme⟩ := List.mem_map.mp hw
      obtain ⟨hmNew, hmw⟩ := (IndexWriter.mem_written st docID _ _ m).mp hm
      have : m = e := emissionsFrom_index_inj 0 keys values m e hmNew hn
        (by simpa [Emission.identity] using (congrArg Prod.snd hme))
      subst this
      exact hmw ⟨hin, hget⟩

/-- Under the store invariant the rows of the document after `update` are, each once, the
emissions passed in. -/
theorem IndexWriter.update_rowsOf_perm (hashOf : List V → Nat) (st : KeyStore K D V)
    (docID : D) (docSequence : Nat) (keys : List K) (values : List V) (rowCount : Nat)
    (hcons : st.Consistent docID) :
    ((IndexWriter.update hashOf st docID docSequence keys values rowCount).store.rowsOf
      docID).Perm (emissionsFrom 0 keys values) := by
  rw [IndexWriter.update_rowsOf]
  have hold : (st.rowsOf docID).Nodup := List.Nodup.of_map _ hcons.nodup
  have hkept := (List.perm_ext_iff_of_nodup (hold.filter _)
    ((emissionsFrom_nodup 0 keys values).filter _)).mpr
    (IndexWriter.kept_mem_iff st docID keys values hcons)
  refine (hkept.append_right _).trans ?_
  refine List.perm_append_comm.trans ?_
  exact List.filter_append_perm _ _

omit [DecidableEq K] [DecidableEq V] in
/-- The empty store satisfies the store invariant for every document. -/
theorem KeyStore.empty_consistent (docID : D) :
    (KeyStore.empty : KeyStore K D V).Consistent docID := by
  simp [KeyStore.Consistent, KeyStore.empty, KeyStore.rowsOf, IndexWriter.getKeysForDoc,
    identitiesFrom]

theorem IndexWriter.update_getKeysForDoc (hashOf : List V → Nat) (st : KeyStore K D V)
    (docID : D) (docSequence : Nat) (keys : List K) (values : List V) (rowCount : Nat) :
    (IndexWriter.getKeysForDoc
      (IndexWriter.update hashOf st docID docSequence keys values rowCount).store docID).1
      = keys := by
  by_cases hk : keys = []
  · simp [IndexWriter.update, IndexWriter.setKeysForDoc, IndexWriter.getKeysForDoc, hk]
  · simp [IndexWriter.update, IndexWriter.setKeysForDoc, IndexWriter.getKeysForDoc, hk]

/-- The store invariant of the updated document is re-established by `update` when every
key comes with a value. -/
theorem IndexWriter.update_consistent (hashOf : List V → Nat) (st : KeyStore K D V)
    (docID : D) (docSequence : Nat) (keys : List K) (values : List V) (rowCount : Nat)
    (hcons : st.Consistent docID) (hlen : keys.length ≤ values.length) :
    (IndexWriter.update hashOf st docID docSequence keys values rowCount).store.Consistent
      docID := by
  unfold KeyStore.Consistent
  rw [IndexWriter.update_getKeysForDoc, ← emissionsFrom_identity 0 keys values hlen]
  exact (IndexWriter.update_rowsOf_perm hashOf st docID docSequence keys values rowCount
    hcons).map _

/-- The rows and the record of every other document are left alone by `update`. -/
theorem IndexWriter.update_other_doc (hashOf : List V → Nat) (st : KeyStore K D V)
    (docID : D) (docSequence : Nat) (keys : List K) (values : List V) (rowCount : Nat)
    (d : D) (hd : d ≠ docID) :
    (IndexWriter.update hashOf st docID docSequence keys values rowCount).store.rowsOf d
        = st.rowsOf d ∧
    (IndexWriter.update hashOf st docID docSequence keys values rowCount).store.records d
        = st.records d := by
  constructor
  · rw [KeyStore.rowsOf, IndexWriter.update_rows, List.filter_append, KeyStore.rowsOf]
    have h2 : ((IndexWriter.written st docID (IndexWriter.getKeysForDoc st docID).1
        (emissionsFrom 0 keys values)).map (Emission.toRow docID docSequence)).filter
        (fun r => decide (r.docID = d)) = [] := by
      rw [List.filter_eq_nil_iff]
      intro r hr
      obtain ⟨e, _, rfl⟩ := List.mem_map.mp hr
      simpa [Emission.toRow] using fun h => hd h.symm
    rw [h2, List.append_nil, List.filter_filter]
    congr 1
    apply List.filter_congr
    intro r _
    rw [Row.any_hasIdentity_emissions, Row.any_hasIdentity]
    by_cases hr : r.docID = d
    · subst hr
      simp [hd]
    · simp [hr]
  · simp only [IndexWriter.update, IndexWriter.setKeysForDoc, List.foldl_append]
    rw [if_neg hd, (KeyStore.foldl_set docID docSequence _
      (IndexWriter.written_identity_nodup st docID _ keys values) _).2,
      (KeyStore.foldl_del docID _ st).2]

end IndexWriterLemmas

section IndexWriterTheorems

variable {K D V : Type} [DecidableEq K] [DecidableEq D] [DecidableEq V]

/-- C6: for a document whose emission record agrees with its stored rows, re-indexing with
an emission set equal to the stored rows (same keys, same emitIndex, same values) returns
false, leaves `rowCount` unchanged, issues no row operation and leaves the rows of the
store as they were. -/
theorem IndexWriter.update_unchanged (hashOf : List V → Nat) (st : KeyStore K D V)
    (docID : D) (docSequence : Nat) (keys : List K) (values : List V) (rowCount : Nat)
    (hcons : st.Consistent docID)
    (hsame : ∀ e, e ∈ emissionsFrom 0 keys values ↔ e ∈ st.rowsOf docID)
    (hrc : rowCount < 2 ^ 64) :
    (IndexWriter.update hashOf st docID docSequence keys values rowCount).changed = false ∧
    (IndexWriter.update hashOf st docID docSequence keys values rowCount).rowCount
      = rowCount ∧
    (IndexWriter.update hashOf st docID docSequence keys values rowCount).writes = [] ∧
    (IndexWriter.update hashOf st docID docSequence keys values rowCount).store.rows
      = st.rows := by
  have hnd := hcons.nodup
  have hids : ∀ id, id ∈ (st.rowsOf docID).map Emission.identity
      ↔ id ∈ identitiesFrom 0 (IndexWriter.getKeysForDoc st docID).1 :=
    fun id => List.Perm.mem_iff hcons
  have hdel : IndexWriter.deleted (IndexWriter.getKeysForDoc st docID).1
      (emissionsFrom 0 keys values) = [] := by
    rw [List.eq_nil_iff_forall_not_mem]
    intro id hid
    obtain ⟨hin, hnot⟩ := (IndexWriter.mem_deleted _ _ id).mp hid
    obtain ⟨o, ho, hoid⟩ := List.mem_map.mp ((hids id).mpr hin)
    exact hnot (List.mem_map.mpr ⟨o, (hsame o).mpr ho, hoid⟩)
  have hins : IndexWriter.inserted (IndexWriter.getKeysForDoc st docID).1
      (emissionsFrom 0 keys values) = [] := by
    rw [List.eq_nil_iff_forall_not_mem]
    intro n hn
    obtain ⟨hnew, hnot⟩ := (IndexWriter.mem_inserted _ _ n).mp hn
    exact hnot ((hids _).mp (List.mem_map_of_mem _ ((hsame n).mp hnew)))
  have hwr : IndexWriter.written st docID (IndexWriter.getKeysForDoc st docID).1
      (emissionsFrom 0 keys values) = [] := by
    rw [List.eq_nil_iff_forall_not_mem]
    intro n hn
    obtain ⟨hnew, hnot⟩ := (IndexWriter.mem_written st docID _ _ n).mp hn
    have hold := (hsame n).mp hnew
    exact hnot ⟨(hids _).mp (List.mem_map_of_mem _ hold),
      (KeyStore.get_eq_some_iff st docID hnd n).mpr hold⟩
  refine ⟨?_, ?_, ?_, ?_⟩
  · simp [IndexWriter.update, hdel, hins]
  · simp only [IndexWriter.update, hdel, hins, List.length_nil]
    omega
  · simp [IndexWriter.update, hdel, hwr]
  · simp [IndexWriter.update, hdel, hwr, IndexWriter.setKeysForDoc]

/-- Witness for C6: document 7 of the sample store re-indexed with its stored emission
`(10, 100)`; `update` returns false. -/
theorem IndexWriter.update_unchanged_witness :
    (IndexWriter.update (fun _ => 0) KeyStore.sample 7 2 [10] [100] 1).changed = false :=
  (IndexWriter.update_unchanged (fun _ => 0) KeyStore.sample 7 2 [10] [100] 1
    (by decide)
    (fun _ => by rw [show KeyStore.sample.rowsOf 7 = emissionsFrom 0 [10] [100] by decide])
    (by decide)).1

end IndexWriterTheorems

end cbforest
